import Mathlib

/-!
Shallow embedding of the reminder-scheduling core of `src/index.js`
(a Telegram appointment-reminder bot).

Modelling choices:
* Instants are `Int` minutes (UTC).  The reminder leads in the source are
  whole minutes (1 day = 1440, 10 h = 600, 2 h = 120, 1 h = 60, 30 m = 30),
  so minute granularity loses nothing.
* The `node-schedule` jobs map (`jobsMap`, a JS `Map`) is an association
  list with JS `Map` semantics: `rset` replaces the first (only) binding of
  a key in place or appends, `rdel` removes it.  A registry entry is
  exactly a live (pending, uncancelled, unfired) timer: the source cancels
  the old timer and immediately overwrites the map entry, and a fired
  callback deletes its own entry.
* The Telegram transport (`bot.sendMessage`) is the Dispatcher; an
  invocation is recorded in a `sent` log.  Its delivery outcome (the
  promise) is ignored by the source, which we model by a `deliveryOk`
  argument the firing callback ignores.
* Luxon's timezone formatting `dtUtc.setZone(TZ).toFormat(..)` is an
  external library call, modelled as an abstract formatting function
  `fmt : Int → String` supplied to the firing callback.
-/

/-- One entry of the `REMINDERS` policy list: key, display label, and the
lead duration (`minus` in the source) in minutes. -/
structure Reminder where
  key : String
  label : String
  minusMin : Int
  deriving DecidableEq

/-- The fixed reminder policy of `src/index.js` lines 51–57. -/
def REMINDERS : List Reminder :=
  [⟨"24h", "1 día", 1440⟩,
   ⟨"10h", "10 horas", 600⟩,
   ⟨"2h", "2 horas", 120⟩,
   ⟨"1h", "1 hora", 60⟩,
   ⟨"30m", "30 minutos", 30⟩]

/-- A row of the `turnos` table / the `turno` object passed to the
scheduler: id, chat id, target instant (UTC minutes), description. -/
structure Turno where
  id : Nat
  chat_id : Int
  fecha : Int
  descripcion : String
  deriving DecidableEq

/-- A live scheduled job: its trigger instant and the `turno` and reminder
the callback closed over. -/
structure Job where
  trigger : Int
  turno : Turno
  rem : Reminder
  deriving DecidableEq

/-- The in-memory `jobsMap`: association list with JS `Map` semantics. -/
abbrev Registry := List (String × Job)

/-- `Map.get` / `Map.has`: first (only) binding of a key. -/
def rget : Registry → String → Option Job
  | [], _ => none
  | (k', j) :: m, k => if k' = k then some j else rget m k

/-- `Map.set`: replace the binding of `k` in place, else append. -/
def rset : Registry → String → Job → Registry
  | [], k, j => [(k, j)]
  | (k', j') :: m, k, j =>
      if k' = k then (k, j) :: m else (k', j') :: rset m k j

/-- `Map.delete`: remove the binding of `k`. -/
def rdel : Registry → String → Registry
  | [], _ => []
  | (k', j') :: m, k => if k' = k then m else (k', j') :: rdel m k

/-- Keys of a registry, in insertion order. -/
def keys (m : Registry) : List String := m.map Prod.fst

/-- A JS `Map` never holds two bindings of one key; registries reachable
from the empty map satisfy this invariant. -/
def NodupKeys (m : Registry) : Prop := (keys m).Nodup

/-- The composite job key of line 64: `turno-<id>-<offsetKey>`. -/
def jobKey (id : Nat) (rkey : String) : String :=
  "turno-" ++ toString id ++ "-" ++ rkey

/-- The trigger instant of line 62: `when = dtUtc.minus(r.minus)`. -/
def trigger (fecha : Int) (r : Reminder) : Int := fecha - r.minusMin

/-- One iteration of the loop in `scheduleRemindersForTurno`
(lines 61–76): skip the offset when its trigger is not in the future,
otherwise cancel any job under the key and install the replacement. -/
def scheduleOne (now : Int) (t : Turno) (m : Registry) (r : Reminder) : Registry :=
  if trigger t.fecha r ≤ now then m
  else rset m (jobKey t.id r.key) ⟨trigger t.fecha r, t, r⟩

/-- `scheduleRemindersForTurno` (lines 59–77) acting on the registry. -/
def scheduleRemindersForTurno (now : Int) (t : Turno) (m : Registry) : Registry :=
  REMINDERS.foldl (scheduleOne now t) m

/-- The startup `init` IIFE (lines 80–86): schedule every stored turno
with a strictly future target instant, and report how many there were. -/
def init (now : Int) (turnos : List Turno) (m : Registry) : Registry × Nat :=
  let futuros := turnos.filter (fun t => decide (now < t.fecha))
  (futuros.foldl (fun acc t => scheduleRemindersForTurno now t acc) m, futuros.length)

/-- `borrarTurno` (lines 44–46): delete the rows matching both id and chat
id; `true` iff at least one row was removed (`changes > 0`). -/
def borrarTurno (turnos : List Turno) (id : Nat) (chatId : Int) :
    List Turno × Bool :=
  (turnos.filter (fun t => !(t.id == id && t.chat_id == chatId)),
   turnos.any (fun t => t.id == id && t.chat_id == chatId))

/-- The whole observable bot state: stored turnos, the jobs map, and the
log of Dispatcher (`bot.sendMessage`) invocations `(chatId, text)`. -/
structure BotState where
  turnos : List Turno
  registry : Registry
  sent : List (Int × String)
  deriving DecidableEq

/-- The `/borrar <id>` handler (lines 148–155): it deletes the row and
answers the user.  Note it never touches the jobs map. -/
def borrarHandler (st : BotState) (chatId : Int) (id : Nat) : BotState :=
  let r := borrarTurno st.turnos id chatId
  if r.2 then
    { st with turnos := r.1,
              sent := st.sent ++ [(chatId, "🗑️ Turno " ++ toString id ++ " borrado")] }
  else
    { st with turnos := r.1,
              sent := st.sent ++ [(chatId, "No se encontró el turno " ++ toString id)] }

/-- JS `s || ''` on a string: the empty string stays empty. -/
def jsOrEmpty (s : String) : String := if s = "" then "" else s

/-- The reminder text of lines 69–72. -/
def mkMessage (label : String) (localFmt : String) (desc : String) : String :=
  "⏰ Recordatorio (" ++ label ++ " antes): " ++ localFmt ++ " " ++ desc

set_option linter.unusedVariables false in
/-- The firing callback of lines 67–74, run when a job's trigger instant
arrives: format the message, invoke the Dispatcher, delete the job's key.
`fmt` abstracts luxon's `setZone(TZ).toFormat(..)`; `deliveryOk` is the
delivery outcome of `bot.sendMessage`, which the source ignores. -/
def fireCallback (fmt : Int → String) (t : Turno) (r : Reminder) (key : String)
    (deliveryOk : Bool) (st : BotState) : BotState :=
  let msg := mkMessage r.label (fmt t.fecha) (jsOrEmpty t.descripcion)
  { st with sent := st.sent ++ [(t.chat_id, msg)],
            registry := rdel st.registry key }

/-! ### Decimal representation of `Nat` (for the job key)

The source builds the key with JS template interpolation of a number,
i.e. its decimal representation; in Lean this is `toString = Nat.repr`.
We characterise it by a structural digit list and prove it injective and
dash-free, which makes `jobKey` collision-free. -/

/-- Structural decimal digit list of a natural number (most significant
digit first), matching what `Nat.toDigitsCore` produces. -/
def natChars (n : Nat) : List Char :=
  if n < 10 then [Nat.digitChar n]
  else natChars (n / 10) ++ [Nat.digitChar (n % 10)]
decreasing_by exact Nat.div_lt_self (by omega) (by omega)

theorem natChars_of_lt {n : Nat} (h : n < 10) : natChars n = [Nat.digitChar n] := by
  rw [natChars, if_pos h]

theorem natChars_of_ge {n : Nat} (h : ¬ n < 10) :
    natChars n = natChars (n / 10) ++ [Nat.digitChar (n % 10)] := by
  rw [natChars, if_neg h]

theorem toDigitsCore_eq_natChars :
    ∀ (fuel n : Nat) (ds : List Char), n ≤ fuel →
      Nat.toDigitsCore 10 (fuel + 1) n ds = natChars n ++ ds := by
  intro fuel
  induction fuel with
  | zero =>
      intro n ds hn
      have h0 : n = 0 := Nat.le_zero.mp hn
      subst h0
      rw [natChars_of_lt (by omega)]
      simp [Nat.toDigitsCore]
  | succ f ih =>
      intro n ds hn
      have step : Nat.toDigitsCore 10 (f + 1 + 1) n ds =
          if n / 10 = 0 then Nat.digitChar (n % 10) :: ds
          else Nat.toDigitsCore 10 (f + 1) (n / 10) (Nat.digitChar (n % 10) :: ds) := rfl
      by_cases hz : n / 10 = 0
      · have hlt : n < 10 := by omega
        rw [step, if_pos hz, natChars_of_lt hlt, Nat.mod_eq_of_lt hlt]
        simp
      · have hge : ¬ n < 10 := by omega
        have hrec : n / 10 ≤ f := by
          have := Nat.div_lt_self (by omega : 0 < n) (by omega : 1 < 10)
          omega
        rw [step, if_neg hz, ih (n / 10) (Nat.digitChar (n % 10) :: ds) hrec,
            natChars_of_ge hge]
        simp

theorem natRepr_eq_natChars (n : Nat) : Nat.repr n = (natChars n).asString := by
  show (Nat.toDigits 10 n).asString = (natChars n).asString
  unfold Nat.toDigits
  rw [toDigitsCore_eq_natChars n n [] (Nat.le_refl n)]
  simp

/-- Decode a digit list, most significant first. -/
def chompDigits (acc : Nat) : List Char → Nat
  | [] => acc
  | c :: cs => chompDigits (acc * 10 + (c.toNat - 48)) cs

theorem chompDigits_append (l₁ l₂ : List Char) :
    ∀ acc, chompDigits acc (l₁ ++ l₂) = chompDigits (chompDigits acc l₁) l₂ := by
  induction l₁ with
  | nil => intro acc; rfl
  | cons c cs ih => intro acc; exact ih (acc * 10 + (c.toNat - 48))

theorem digitVal_digitChar {d : Nat} (h : d < 10) :
    (Nat.digitChar d).toNat - 48 = d := by
  interval_cases d <;> decide

theorem digitChar_ne_dash {d : Nat} (h : d < 10) : Nat.digitChar d ≠ '-' := by
  interval_cases d <;> decide

theorem chompDigits_natChars (n : Nat) :
    ∀ acc, chompDigits acc (natChars n) = acc * 10 ^ (natChars n).length + n := by
  induction n using Nat.strong_induction_on with
  | _ n ih =>
    intro acc
    have e1 : ∀ (a : Nat) (c : Char), chompDigits a [c] = a * 10 + (c.toNat - 48) :=
      fun a c => rfl
    by_cases h : n < 10
    · rw [natChars_of_lt h, e1, digitVal_digitChar h]
      simp
    · rw [natChars_of_ge h]
      have hlt : n / 10 < n := Nat.div_lt_self (by omega) (by omega)
      rw [chompDigits_append, ih (n / 10) hlt acc, e1,
          digitVal_digitChar (Nat.mod_lt n (by omega))]
      rw [List.length_append, List.length_singleton, pow_succ]
      have hdm : 10 * (n / 10) + n % 10 = n := Nat.div_add_mod n 10
      calc (acc * 10 ^ (natChars (n / 10)).length + n / 10) * 10 + n % 10
          = acc * (10 ^ (natChars (n / 10)).length * 10)
              + (10 * (n / 10) + n % 10) := by ring
        _ = acc * (10 ^ (natChars (n / 10)).length * 10) + n := by rw [hdm]

theorem natChars_inj {a b : Nat} (h : natChars a = natChars b) : a = b := by
  have ha := chompDigits_natChars a 0
  have hb := chompDigits_natChars b 0
  rw [h] at ha
  rw [ha] at hb
  simpa using hb

theorem natRepr_inj {a b : Nat} (h : Nat.repr a = Nat.repr b) : a = b := by
  rw [natRepr_eq_natChars, natRepr_eq_natChars, List.asString_inj] at h
  exact natChars_inj h

theorem natChars_ne_dash (n : Nat) : ∀ c ∈ natChars n, c ≠ '-' := by
  induction n using Nat.strong_induction_on with
  | _ n ih =>
    by_cases h : n < 10
    · rw [natChars_of_lt h]
      intro c hc
      simp at hc
      subst hc
      exact digitChar_ne_dash h
    · rw [natChars_of_ge h]
      intro c hc
      rcases List.mem_append.mp hc with hc | hc
      · exact ih (n / 10) (Nat.div_lt_self (by omega) (by omega)) c hc
      · simp at hc
        subst hc
        exact digitChar_ne_dash (Nat.mod_lt n (by omega))

theorem append_dash_inj :
    ∀ (l₁ l₂ r₁ r₂ : List Char), (∀ c ∈ l₁, c ≠ '-') → (∀ c ∈ l₂, c ≠ '-') →
      l₁ ++ '-' :: r₁ = l₂ ++ '-' :: r₂ → l₁ = l₂ ∧ r₁ = r₂ := by
  intro l₁
  induction l₁ with
  | nil =>
      intro l₂ r₁ r₂ _ h₂ h
      cases l₂ with
      | nil => simpa using h
      | cons c l₂' =>
          simp at h
          exact absurd h.1.symm (h₂ c (by simp))
  | cons c l₁' ih =>
      intro l₂ r₁ r₂ h₁ h₂ h
      cases l₂ with
      | nil =>
          simp at h
          exact absurd h.1 (h₁ c (by simp))
      | cons c' l₂' =>
          simp at h
          obtain ⟨hc, ht⟩ := h
          obtain ⟨he, hr⟩ := ih l₂' r₁ r₂ (fun x hx => h₁ x (by simp [hx]))
            (fun x hx => h₂ x (by simp [hx])) ht
          exact ⟨by rw [hc, he], hr⟩

theorem toString_nat_eq (n : Nat) : toString n = Nat.repr n := rfl

theorem jobKey_data (i : Nat) (a : String) :
    (jobKey i a).data =
      't' :: 'u' :: 'r' :: 'n' :: 'o' :: '-' :: (natChars i ++ '-' :: a.data) := by
  show ((("turno-" ++ toString i) ++ "-") ++ a).data = _
  rw [String.data_append, String.data_append, String.data_append,
      toString_nat_eq, natRepr_eq_natChars,
      show ((natChars i).asString.data = natChars i) from rfl]
  simp

/-- The job key of line 64 is deterministic (it is a pure function) and
collision-free across distinct ids and distinct offset keys. -/
theorem jobKey_inj (i j : Nat) (a b : String) :
    jobKey i a = jobKey j b ↔ i = j ∧ a = b := by
  constructor
  · intro h
    have hd := congrArg String.data h
    rw [jobKey_data, jobKey_data] at hd
    simp only [List.cons.injEq, true_and] at hd
    obtain ⟨h₁, h₂⟩ := append_dash_inj _ _ _ _ (natChars_ne_dash i)
      (natChars_ne_dash j) hd
    exact ⟨natChars_inj h₁, String.toList_inj.mp h₂⟩
  · rintro ⟨rfl, rfl⟩
    rfl

/-! ### Registry (JS `Map`) lemmas -/

theorem rget_rset_self (m : Registry) (k : String) (j : Job) :
    rget (rset m k j) k = some j := by
  induction m with
  | nil => simp [rset, rget]
  | cons p m ih =>
      obtain ⟨k', j'⟩ := p
      by_cases h : k' = k
      · simp [rset, h, rget]
      · simp [rset, h, rget, ih]

theorem rget_rset_ne (m : Registry) {k k' : String} (j : Job) (h : k' ≠ k) :
    rget (rset m k j) k' = rget m k' := by
  have h' : ¬ k = k' := fun hh => h hh.symm
  induction m with
  | nil => simp [rset, rget, h']
  | cons p m ih =>
      obtain ⟨k₀, j₀⟩ := p
      by_cases h₀ : k₀ = k
      · subst h₀
        simp [rset, rget, h']
      · simp only [rset, if_neg h₀, rget]
        by_cases h₁ : k₀ = k'
        · simp [h₁]
        · simp [h₁, ih]

theorem mem_keys_rset (m : Registry) (k a : String) (j : Job) :
    a ∈ keys (rset m k j) ↔ a ∈ keys m ∨ a = k := by
  induction m with
  | nil => simp [rset, keys]
  | cons p m ih =>
      obtain ⟨k₀, j₀⟩ := p
      by_cases h₀ : k₀ = k
      · subst h₀
        rw [show rset ((k₀, j₀) :: m) k₀ j = (k₀, j) :: m from by simp [rset]]
        simp only [keys, List.map_cons, List.mem_cons]
        tauto
      · simp only [rset, if_neg h₀, keys, List.map_cons, List.mem_cons] at ih ⊢
        rw [ih]
        tauto

theorem length_rset_mem (m : Registry) {k : String} (j : Job) (h : k ∈ keys m) :
    (rset m k j).length = m.length := by
  induction m with
  | nil => simp [keys] at h
  | cons p m ih =>
      obtain ⟨k₀, j₀⟩ := p
      by_cases h₀ : k₀ = k
      · simp [rset, h₀]
      · have hm : k ∈ keys m := by
          simp [keys] at h
          rcases h with h | h
          · exact absurd h.symm h₀
          · simpa [keys] using h
        simp [rset, h₀, ih hm]

theorem length_rset_not_mem (m : Registry) {k : String} (j : Job) (h : k ∉ keys m) :
    (rset m k j).length = m.length + 1 := by
  induction m with
  | nil => simp [rset]
  | cons p m ih =>
      obtain ⟨k₀, j₀⟩ := p
      have h₀ : k₀ ≠ k := by
        intro hh
        exact h (by simp [keys, hh])
      have hm : k ∉ keys m := by
        intro hh
        exact h (by simp [keys] at hh ⊢; exact Or.inr hh)
      simp [rset, h₀, ih hm]

theorem nodupKeys_rset (m : Registry) (k : String) (j : Job) (h : NodupKeys m) :
    NodupKeys (rset m k j) := by
  induction m with
  | nil => simp [NodupKeys, keys, rset]
  | cons p m ih =>
      obtain ⟨k₀, j₀⟩ := p
      simp only [NodupKeys, keys, List.map_cons, List.nodup_cons] at h
      by_cases h₀ : k₀ = k
      · subst h₀
        rw [show rset ((k₀, j₀) :: m) k₀ j = (k₀, j) :: m from by simp [rset]]
        simp only [NodupKeys, keys, List.map_cons, List.nodup_cons]
        exact h
      · rw [show rset ((k₀, j₀) :: m) k j = (k₀, j₀) :: rset m k j from by
          simp [rset, h₀]]
        simp only [NodupKeys, keys, List.map_cons, List.nodup_cons]
        refine ⟨?_, ih h.2⟩
        intro hmem
        rcases (mem_keys_rset m k k₀ j).mp hmem with hmem | hmem
        · exact h.1 hmem
        · exact h₀ hmem

theorem mem_rset (m : Registry) (k : String) (j : Job) (p : String × Job)
    (h : p ∈ rset m k j) : p ∈ m ∨ p = (k, j) := by
  induction m with
  | nil => simp [rset] at h; simp [h]
  | cons q m ih =>
      obtain ⟨k₀, j₀⟩ := q
      by_cases h₀ : k₀ = k
      · subst h₀
        rw [show rset ((k₀, j₀) :: m) k₀ j = (k₀, j) :: m from by simp [rset]] at h
        rcases List.mem_cons.mp h with h | h
        · exact Or.inr h
        · exact Or.inl (List.mem_cons_of_mem _ h)
      · rw [show rset ((k₀, j₀) :: m) k j = (k₀, j₀) :: rset m k j from by
          simp [rset, h₀]] at h
        rcases List.mem_cons.mp h with h | h
        · exact Or.inl (by simp [h])
        · rcases ih h with h | h
          · exact Or.inl (List.mem_cons_of_mem _ h)
          · exact Or.inr h

theorem rset_eq_of_rget (m : Registry) (k : String) (j : Job)
    (h : rget m k = some j) : rset m k j = m := by
  induction m with
  | nil => simp [rget] at h
  | cons p m ih =>
      obtain ⟨k₀, j₀⟩ := p
      by_cases h₀ : k₀ = k
      · subst h₀
        rw [show rget ((k₀, j₀) :: m) k₀ = some j₀ from by simp [rget]] at h
        rw [show rset ((k₀, j₀) :: m) k₀ j = (k₀, j) :: m from by simp [rset]]
        simp at h
        rw [h]
      · rw [show rget ((k₀, j₀) :: m) k = rget m k from by simp [rget, h₀]] at h
        rw [show rset ((k₀, j₀) :: m) k j = (k₀, j₀) :: rset m k j from by
          simp [rset, h₀], ih h]

theorem rget_eq_none_iff (m : Registry) (k : String) :
    rget m k = none ↔ k ∉ keys m := by
  induction m with
  | nil => simp [rget, keys]
  | cons p m ih =>
      obtain ⟨k₀, j₀⟩ := p
      by_cases h₀ : k₀ = k
      · subst h₀
        simp [rget, keys]
      · have h₁ : ¬ k = k₀ := fun hh => h₀ hh.symm
        simp [rget, keys, h₀, ih, h₁]

theorem rget_rdel_self (m : Registry) (k : String) (h : NodupKeys m) :
    rget (rdel m k) k = none := by
  induction m with
  | nil => simp [rdel, rget]
  | cons p m ih =>
      obtain ⟨k₀, j₀⟩ := p
      simp only [NodupKeys, keys, List.map_cons, List.nodup_cons] at h
      by_cases h₀ : k₀ = k
      · subst h₀
        rw [show rdel ((k₀, j₀) :: m) k₀ = m from by simp [rdel]]
        exact (rget_eq_none_iff m k₀).mpr h.1
      · rw [show rdel ((k₀, j₀) :: m) k = (k₀, j₀) :: rdel m k from by
          simp [rdel, h₀]]
        rw [show rget ((k₀, j₀) :: rdel m k) k = rget (rdel m k) k from by
          simp [rget, h₀]]
        exact ih h.2

/-- Number of registry bindings under a key. -/
def countKey (m : Registry) (k : String) : Nat :=
  m.countP (fun p => decide (p.1 = k))

theorem countKey_eq_zero (m : Registry) (k : String) (h : k ∉ keys m) :
    countKey m k = 0 := by
  induction m with
  | nil => rfl
  | cons p m ih =>
      obtain ⟨k₀, j₀⟩ := p
      have h₀ : ¬ k₀ = k := fun hh => h (by simp [keys, hh])
      have hm : k ∉ keys m := fun hh => h (by simp [keys] at hh ⊢; exact Or.inr hh)
      simp only [countKey, List.countP_cons] at ih ⊢
      simp [h₀, ih hm]

theorem countKey_eq_one (m : Registry) (k : String) (h : NodupKeys m)
    (hk : k ∈ keys m) : countKey m k = 1 := by
  induction m with
  | nil => simp [keys] at hk
  | cons p m ih =>
      obtain ⟨k₀, j₀⟩ := p
      simp only [NodupKeys, keys, List.map_cons, List.nodup_cons] at h
      by_cases h₀ : k₀ = k
      · subst h₀
        have hz : countKey m k₀ = 0 := countKey_eq_zero m k₀ h.1
        rw [show countKey ((k₀, j₀) :: m) k₀ = countKey m k₀ + 1 from by
          simp [countKey, List.countP_cons], hz]
      · have hm : k ∈ keys m := by
          simp [keys] at hk
          rcases hk with hk | hk
          · exact absurd hk.symm h₀
          · simpa [keys] using hk
        rw [show countKey ((k₀, j₀) :: m) k = countKey m k from by
          simp [countKey, List.countP_cons, h₀], ih h.2 hm]

theorem mem_keys_iff (m : Registry) (a : String) :
    a ∈ keys m ↔ ∃ j, (a, j) ∈ m := by
  induction m with
  | nil => simp [keys]
  | cons p m ih =>
      obtain ⟨k₀, j₀⟩ := p
      simp only [keys, List.map_cons, List.mem_cons] at ih ⊢
      constructor
      · rintro (h | h)
        · exact ⟨j₀, Or.inl (by rw [h])⟩
        · obtain ⟨j, hj⟩ := ih.mp h
          exact ⟨j, Or.inr hj⟩
      · rintro ⟨j, hj | hj⟩
        · exact Or.inl (congrArg Prod.fst hj)
        · exact Or.inr (ih.mpr ⟨j, hj⟩)

/-! ### Lemmas about the scheduling loop, for an arbitrary policy list -/

theorem sched_rget_other (now : Int) (t : Turno) (k : String) :
    ∀ (rs : List Reminder) (m : Registry),
      (∀ r ∈ rs, trigger t.fecha r ≤ now ∨ k ≠ jobKey t.id r.key) →
      rget (rs.foldl (scheduleOne now t) m) k = rget m k := by
  intro rs
  induction rs with
  | nil => intro m _; rfl
  | cons r₀ rs ih =>
      intro m h
      rw [List.foldl_cons, ih _ (fun r hr => h r (List.mem_cons_of_mem _ hr))]
      rcases h r₀ (List.mem_cons_self _ _) with hsk | hne
      · simp [scheduleOne, hsk]
      · by_cases hsk : trigger t.fecha r₀ ≤ now
        · simp [scheduleOne, hsk]
        · simp only [scheduleOne, if_neg hsk]
          exact rget_rset_ne m _ hne

theorem sched_rget_mem (now : Int) (t : Turno) :
    ∀ (rs : List Reminder) (m : Registry) (r : Reminder),
      (rs.map Reminder.key).Nodup → r ∈ rs → now < trigger t.fecha r →
      rget (rs.foldl (scheduleOne now t) m) (jobKey t.id r.key) =
        some ⟨trigger t.fecha r, t, r⟩ := by
  intro rs
  induction rs with
  | nil => intro m r _ hr; simp at hr
  | cons r₀ rs ih =>
      intro m r hnd hr hfut
      simp only [List.map_cons, List.nodup_cons] at hnd
      rw [List.foldl_cons]
      rcases List.mem_cons.mp hr with hr | hr
      · subst hr
        have hstep : scheduleOne now t m r = rset m (jobKey t.id r.key)
            ⟨trigger t.fecha r, t, r⟩ := by
          simp [scheduleOne, not_le.mpr hfut]
        rw [hstep, sched_rget_other now t _ rs _ ?_, rget_rset_self]
        intro r' hr'
        right
        intro hk
        have := ((jobKey_inj t.id t.id r.key r'.key).mp hk).2
        exact hnd.1 (this ▸ List.mem_map_of_mem Reminder.key hr')
      · exact ih _ r hnd.2 hr hfut

theorem sched_nodupKeys (now : Int) (t : Turno) :
    ∀ (rs : List Reminder) (m : Registry), NodupKeys m →
      NodupKeys (rs.foldl (scheduleOne now t) m) := by
  intro rs
  induction rs with
  | nil => intro m h; exact h
  | cons r₀ rs ih =>
      intro m h
      rw [List.foldl_cons]
      apply ih
      by_cases hsk : trigger t.fecha r₀ ≤ now
      · simpa [scheduleOne, hsk] using h
      · simp only [scheduleOne, if_neg hsk]
        exact nodupKeys_rset m _ _ h

theorem sched_length (now : Int) (t : Turno) :
    ∀ (rs : List Reminder) (m : Registry),
      (rs.map Reminder.key).Nodup →
      (∀ r ∈ rs, jobKey t.id r.key ∉ keys m) →
      (rs.foldl (scheduleOne now t) m).length =
        m.length + (rs.filter (fun r => decide (now < trigger t.fecha r))).length := by
  intro rs
  induction rs with
  | nil => intro m _ _; simp
  | cons r₀ rs ih =>
      intro m hnd hfresh
      simp only [List.map_cons, List.nodup_cons] at hnd
      rw [List.foldl_cons]
      by_cases hsk : trigger t.fecha r₀ ≤ now
      · have hstep : scheduleOne now t m r₀ = m := by simp [scheduleOne, hsk]
        rw [hstep, ih m hnd.2 (fun r hr => hfresh r (List.mem_cons_of_mem _ hr))]
        have : decide (now < trigger t.fecha r₀) = false := by
          simp [not_lt.mpr hsk]
        simp [List.filter_cons, this]
      · have hstep : scheduleOne now t m r₀ = rset m (jobKey t.id r₀.key)
            ⟨trigger t.fecha r₀, t, r₀⟩ := by simp [scheduleOne, hsk]
        have hnotm : jobKey t.id r₀.key ∉ keys m :=
          hfresh r₀ (List.mem_cons_self _ _)
        have hfresh' : ∀ r ∈ rs,
            jobKey t.id r.key ∉ keys (rset m (jobKey t.id r₀.key)
              ⟨trigger t.fecha r₀, t, r₀⟩) := by
          intro r hr hmem
          rcases (mem_keys_rset m _ _ _).mp hmem with hmem | hmem
          · exact hfresh r (List.mem_cons_of_mem _ hr) hmem
          · have := ((jobKey_inj t.id t.id r.key r₀.key).mp hmem).2
            exact hnd.1 (this ▸ List.mem_map_of_mem Reminder.key hr)
        rw [hstep, ih _ hnd.2 hfresh', length_rset_not_mem m _ hnotm]
        have : decide (now < trigger t.fecha r₀) = true := by
          simp [not_le.mp hsk]
        simp only [List.filter_cons, this, if_pos, List.length_cons]
        omega

theorem sched_mem (now : Int) (t : Turno) :
    ∀ (rs : List Reminder) (m : Registry) (p : String × Job),
      p ∈ rs.foldl (scheduleOne now t) m →
      p ∈ m ∨ ∃ r ∈ rs, now < trigger t.fecha r ∧
        p = (jobKey t.id r.key, ⟨trigger t.fecha r, t, r⟩) := by
  intro rs
  induction rs with
  | nil => intro m p h; exact Or.inl h
  | cons r₀ rs ih =>
      intro m p h
      rw [List.foldl_cons] at h
      rcases ih _ p h with hm | ⟨r, hr, hfut, hp⟩
      · by_cases hsk : trigger t.fecha r₀ ≤ now
        · rw [show scheduleOne now t m r₀ = m from by simp [scheduleOne, hsk]] at hm
          exact Or.inl hm
        · rw [show scheduleOne now t m r₀ = rset m (jobKey t.id r₀.key)
              ⟨trigger t.fecha r₀, t, r₀⟩ from by simp [scheduleOne, hsk]] at hm
          rcases mem_rset _ _ _ _ hm with hm | hm
          · exact Or.inl hm
          · exact Or.inr ⟨r₀, List.mem_cons_self _ _, not_le.mp hsk, hm⟩
      · exact Or.inr ⟨r, List.mem_cons_of_mem _ hr, hfut, hp⟩

theorem sched_fix (now : Int) (t : Turno) :
    ∀ (rs : List Reminder) (m : Registry),
      (∀ r ∈ rs, scheduleOne now t m r = m) →
      rs.foldl (scheduleOne now t) m = m := by
  intro rs
  induction rs with
  | nil => intro m _; rfl
  | cons r₀ rs ih =>
      intro m h
      rw [List.foldl_cons, h r₀ (List.mem_cons_self _ _)]
      exact ih m (fun r hr => h r (List.mem_cons_of_mem _ hr))

theorem reminders_keys_nodup : (REMINDERS.map Reminder.key).Nodup := by decide

theorem reminders_key_inj :
    ∀ r ∈ REMINDERS, ∀ r' ∈ REMINDERS, r.key = r'.key → r = r' := by
  intro r hr r' hr'
  fin_cases hr <;> fin_cases hr' <;> decide

theorem str_append_assoc (a b c : String) : (a ++ b) ++ c = a ++ (b ++ c) := by
  have h : ((a ++ b) ++ c).data = (a ++ (b ++ c)).data := by
    simp [String.data_append, List.append_assoc]
  exact String.toList_inj.mp h

theorem jsOrEmpty_eq (s : String) : jsOrEmpty s = s := by
  unfold jsOrEmpty
  by_cases h : s = ""
  · rw [if_pos h, h]
  · rw [if_neg h]

theorem mkMessage_has_label (l f d : String) :
    ∃ s₁ s₂, mkMessage l f d = s₁ ++ l ++ s₂ := by
  refine ⟨"⏰ Recordatorio (", (" antes): " ++ f ++ " ") ++ d, ?_⟩
  unfold mkMessage
  simp only [str_append_assoc]

theorem mkMessage_has_fmt (l f d : String) :
    ∃ s₁ s₂, mkMessage l f d = s₁ ++ f ++ s₂ := by
  refine ⟨("⏰ Recordatorio (" ++ l) ++ " antes): ", " " ++ d, ?_⟩
  unfold mkMessage
  simp only [str_append_assoc]

theorem mkMessage_has_desc (l f d : String) :
    ∃ s₁ s₂, mkMessage l f d = s₁ ++ d ++ s₂ := by
  refine ⟨((("⏰ Recordatorio (" ++ l) ++ " antes): ") ++ f) ++ " ", "", ?_⟩
  unfold mkMessage
  rw [String.append_empty]

theorem rget_mem_keys {m : Registry} {k : String} {j : Job}
    (h : rget m k = some j) : k ∈ keys m := by
  by_contra hk
  rw [(rget_eq_none_iff m k).mpr hk] at h
  exact Option.noConfusion h

theorem init_aux_length (now : Int) :
    ∀ (ts : List Turno) (m : Registry),
      (ts.map Turno.id).Nodup →
      (∀ t ∈ ts, ∀ s : String, jobKey t.id s ∉ keys m) →
      (ts.foldl (fun acc t => scheduleRemindersForTurno now t acc) m).length =
        m.length + (ts.map (fun t =>
          (REMINDERS.filter (fun r => decide (now < trigger t.fecha r))).length)).sum := by
  intro ts
  induction ts with
  | nil => intro m _ _; simp
  | cons t₀ ts ih =>
      intro m hnd hfresh
      simp only [List.map_cons, List.nodup_cons] at hnd
      rw [List.foldl_cons]
      have hlen : (scheduleRemindersForTurno now t₀ m).length =
          m.length + (REMINDERS.filter
            (fun r => decide (now < trigger t₀.fecha r))).length := by
        rw [scheduleRemindersForTurno]
        exact sched_length now t₀ REMINDERS m reminders_keys_nodup
          (fun r _ => hfresh t₀ (List.mem_cons_self _ _) r.key)
      have hfresh' : ∀ t ∈ ts, ∀ s : String,
          jobKey t.id s ∉ keys (scheduleRemindersForTurno now t₀ m) := by
        intro t ht s hmem
        obtain ⟨j, hj⟩ := (mem_keys_iff _ _).mp hmem
        rw [scheduleRemindersForTurno] at hj
        rcases sched_mem now t₀ REMINDERS m _ hj with hj | ⟨r, _, _, hp⟩
        · exact hfresh t (List.mem_cons_of_mem _ ht) s
            ((mem_keys_iff m _).mpr ⟨j, hj⟩)
        · have hk : jobKey t.id s = jobKey t₀.id r.key := congrArg Prod.fst hp
          have hid : t.id = t₀.id := ((jobKey_inj _ _ _ _).mp hk).1
          exact hnd.1 (hid ▸ List.mem_map_of_mem Turno.id ht)
      rw [ih _ hnd.2 hfresh', hlen]
      simp only [List.map_cons, List.sum_cons]
      omega

theorem init_aux_mem (now : Int) :
    ∀ (ts : List Turno) (m : Registry) (p : String × Job),
      p ∈ ts.foldl (fun acc t => scheduleRemindersForTurno now t acc) m →
      p ∈ m ∨ ∃ t ∈ ts, ∃ r ∈ REMINDERS, now < trigger t.fecha r ∧
        p = (jobKey t.id r.key, ⟨trigger t.fecha r, t, r⟩) := by
  intro ts
  induction ts with
  | nil => intro m p h; exact Or.inl h
  | cons t₀ ts ih =>
      intro m p h
      rw [List.foldl_cons] at h
      rcases ih _ p h with hm | ⟨t, ht, hrest⟩
      · rw [scheduleRemindersForTurno] at hm
        rcases sched_mem now t₀ REMINDERS m _ hm with hm | ⟨r, hr, hfut, hp⟩
        · exact Or.inl hm
        · exact Or.inr ⟨t₀, List.mem_cons_self _ _, r, hr, hfut, hp⟩
      · exact Or.inr ⟨t, List.mem_cons_of_mem _ ht, hrest⟩

/-! ### The claims -/

/-- C9: for every target instant the trigger instants computed for the
configured offsets in policy order are strictly increasing, because the
lead durations (1 day, 10 h, 2 h, 1 h, 30 m) are strictly decreasing;
the smallest-lead reminder has the latest trigger. -/
theorem trigger_instants_strictly_increasing (fecha : Int) :
    List.Chain' (· < ·) (REMINDERS.map (trigger fecha)) ∧
    List.Chain' (· > ·) (REMINDERS.map Reminder.minusMin) := by
  constructor
  · simp only [REMINDERS, trigger, List.map_cons, List.map_nil,
      List.chain'_cons, List.chain'_singleton, and_true]
    omega
  · simp only [REMINDERS, List.map_cons, List.map_nil,
      List.chain'_cons, List.chain'_singleton, and_true]
    decide

/-- C8: the job key function is deterministic (equal inputs give the
identical key) and injective (distinct id/offset-key pairs always give
distinct keys). -/
theorem jobKey_deterministic_and_injective (i j : Nat) (a b : String) :
    (i = j ∧ a = b → jobKey i a = jobKey j b) ∧
    (jobKey i a = jobKey j b → i = j ∧ a = b) :=
  ⟨fun h => by rw [h.1, h.2], fun h => (jobKey_inj i j a b).mp h⟩

/-- Witness for C8 at a concrete pair. -/
theorem jobKey_deterministic_and_injective_witness :
    jobKey 3 "24h" = jobKey 3 "24h" ∧ (3 = 3 ∧ "24h" = "24h") :=
  ⟨(jobKey_deterministic_and_injective 3 3 "24h" "24h").1 ⟨rfl, rfl⟩,
   (jobKey_deterministic_and_injective 3 3 "24h" "24h").2 rfl⟩

/-- C3: an offset whose trigger instant is not in the future produces no
job (starting from an empty registry, its key stays absent); in
particular an appointment 20 minutes in the future produces zero jobs
under the default policy. -/
theorem past_offset_skipped (now : Int) (t : Turno) :
    (∀ r ∈ REMINDERS, trigger t.fecha r ≤ now →
      rget (scheduleRemindersForTurno now t []) (jobKey t.id r.key) = none) ∧
    (t.fecha = now + 20 → scheduleRemindersForTurno now t [] = []) := by
  constructor
  · intro r hr hsk
    rw [scheduleRemindersForTurno, sched_rget_other now t _ REMINDERS []]
    · rfl
    · intro r' hr'
      by_cases he : r'.key = r.key
      · have : r' = r := reminders_key_inj r' hr' r hr he
        subst this
        exact Or.inl hsk
      · right
        intro hk
        exact he ((jobKey_inj t.id t.id r.key r'.key).mp hk).2.symm
  · intro h
    rw [scheduleRemindersForTurno]
    apply sched_fix
    intro r hr
    fin_cases hr <;>
      · simp only [scheduleOne, trigger]
        rw [if_pos (by omega)]

/-- Witness for C3: one skipped offset key is absent, and a 20-minute
appointment yields an empty registry. -/
theorem past_offset_skipped_witness :
    rget (scheduleRemindersForTurno 0 ⟨1, 7, 100, "x"⟩ []) (jobKey 1 "24h") = none ∧
    scheduleRemindersForTurno 0 ⟨1, 7, 20, "x"⟩ [] = [] :=
  ⟨(past_offset_skipped 0 ⟨1, 7, 100, "x"⟩).1 ⟨"24h", "1 día", 1440⟩
      (by decide) (by decide),
   (past_offset_skipped 0 ⟨1, 7, 20, "x"⟩).2 (by decide)⟩

/-- C4: for an appointment at least 25 hours (1500 minutes) in the
future, scheduling from an empty registry creates exactly one job per
configured offset — five jobs — each held under its appointment/offset
key with the computed trigger. -/
theorem offsets_complete_25h (now : Int) (t : Turno)
    (h : now + 1500 ≤ t.fecha) :
    (scheduleRemindersForTurno now t []).length = 5 ∧
    ∀ r ∈ REMINDERS, rget (scheduleRemindersForTurno now t [])
      (jobKey t.id r.key) = some ⟨trigger t.fecha r, t, r⟩ := by
  constructor
  · rw [scheduleRemindersForTurno,
        sched_length now t REMINDERS [] reminders_keys_nodup
          (by intro r _ hmem; simp [keys] at hmem)]
    rw [List.filter_eq_self.mpr ?_]
    · rfl
    · intro r hr
      fin_cases hr <;> simp [trigger] <;> omega
  · intro r hr
    have hfut : now < trigger t.fecha r := by
      fin_cases hr <;> simp [trigger] <;> omega
    rw [scheduleRemindersForTurno]
    exact sched_rget_mem now t REMINDERS [] r reminders_keys_nodup hr hfut

/-- Witness for C4 at a concrete appointment exactly 25 h ahead. -/
theorem offsets_complete_25h_witness :
    (scheduleRemindersForTurno 0 ⟨1, 7, 1500, ""⟩ []).length = 5 ∧
    ∀ r ∈ REMINDERS, rget (scheduleRemindersForTurno 0 ⟨1, 7, 1500, ""⟩ [])
      (jobKey 1 r.key) = some ⟨trigger 1500 r, ⟨1, 7, 1500, ""⟩, r⟩ :=
  offsets_complete_25h 0 ⟨1, 7, 1500, ""⟩ (by decide)

/-- C10: when an offset's trigger is not strictly future, its loop
iteration leaves the whole registry unchanged (the skip happens before
cancel-then-replace), and a full scheduling run leaves every binding
whose key is not one of the installed (future-trigger) keys exactly as
it was. -/
theorem skipped_offset_frame (now : Int) (t : Turno) (m : Registry) :
    (∀ r : Reminder, trigger t.fecha r ≤ now → scheduleOne now t m r = m) ∧
    (∀ k : String,
      (∀ r ∈ REMINDERS, now < trigger t.fecha r → k ≠ jobKey t.id r.key) →
      rget (scheduleRemindersForTurno now t m) k = rget m k) := by
  constructor
  · intro r hsk
    simp [scheduleOne, hsk]
  · intro k hk
    rw [scheduleRemindersForTurno]
    apply sched_rget_other
    intro r hr
    by_cases hsk : trigger t.fecha r ≤ now
    · exact Or.inl hsk
    · exact Or.inr (hk r hr (not_le.mp hsk))

/-- Witness for C10: a pre-existing binding under a skipped offset's key
survives a re-run untouched. -/
theorem skipped_offset_frame_witness :
    scheduleOne 1000 ⟨1, 7, 1030, ""⟩
      [(jobKey 1 "24h", ⟨-410, ⟨1, 7, 1030, ""⟩, ⟨"24h", "1 día", 1440⟩⟩)]
      ⟨"24h", "1 día", 1440⟩ =
      [(jobKey 1 "24h", ⟨-410, ⟨1, 7, 1030, ""⟩, ⟨"24h", "1 día", 1440⟩⟩)] ∧
    rget (scheduleRemindersForTurno 1000 ⟨1, 7, 1030, ""⟩
      [(jobKey 1 "24h", ⟨-410, ⟨1, 7, 1030, ""⟩, ⟨"24h", "1 día", 1440⟩⟩)])
      (jobKey 1 "24h") =
      rget [(jobKey 1 "24h", ⟨-410, ⟨1, 7, 1030, ""⟩, ⟨"24h", "1 día", 1440⟩⟩)]
        (jobKey 1 "24h") :=
  ⟨(skipped_offset_frame 1000 ⟨1, 7, 1030, ""⟩ _).1 ⟨"24h", "1 día", 1440⟩
      (by decide),
   (skipped_offset_frame 1000 ⟨1, 7, 1030, ""⟩ _).2 (jobKey 1 "24h")
      (by decide)⟩

/-- C2: `scheduleRemindersForTurno` is idempotent on the registry —
running it a second time for the same appointment changes nothing (each
key is cancel-then-replaced with the identical job), so exactly one live
job per future-trigger offset key remains and no duplicates exist. -/
theorem scheduleReminders_idempotent (now : Int) (t : Turno) (m : Registry)
    (h : NodupKeys m) :
    scheduleRemindersForTurno now t (scheduleRemindersForTurno now t m) =
      scheduleRemindersForTurno now t m ∧
    ∀ r ∈ REMINDERS, now < trigger t.fecha r →
      countKey (scheduleRemindersForTurno now t
        (scheduleRemindersForTurno now t m)) (jobKey t.id r.key) = 1 := by
  have hM : NodupKeys (scheduleRemindersForTurno now t m) := by
    rw [scheduleRemindersForTurno]
    exact sched_nodupKeys now t REMINDERS m h
  have heq : scheduleRemindersForTurno now t
      (scheduleRemindersForTurno now t m) =
      scheduleRemindersForTurno now t m := by
    conv_lhs => rw [scheduleRemindersForTurno]
    apply sched_fix
    intro r hr
    by_cases hsk : trigger t.fecha r ≤ now
    · simp [scheduleOne, hsk]
    · have hget : rget (scheduleRemindersForTurno now t m)
          (jobKey t.id r.key) = some ⟨trigger t.fecha r, t, r⟩ := by
        rw [scheduleRemindersForTurno]
        exact sched_rget_mem now t REMINDERS m r reminders_keys_nodup hr
          (not_le.mp hsk)
      simp only [scheduleOne, if_neg hsk]
      exact rset_eq_of_rget _ _ _ hget
  refine ⟨heq, ?_⟩
  intro r hr hfut
  rw [heq]
  apply countKey_eq_one _ _ hM
  have hget : rget (scheduleRemindersForTurno now t m)
      (jobKey t.id r.key) = some ⟨trigger t.fecha r, t, r⟩ := by
    rw [scheduleRemindersForTurno]
    exact sched_rget_mem now t REMINDERS m r reminders_keys_nodup hr hfut
  exact rget_mem_keys hget

/-- Witness for C2 at a concrete appointment and empty initial registry. -/
theorem scheduleReminders_idempotent_witness :
    scheduleRemindersForTurno 0 ⟨1, 7, 1500, ""⟩
      (scheduleRemindersForTurno 0 ⟨1, 7, 1500, ""⟩ []) =
      scheduleRemindersForTurno 0 ⟨1, 7, 1500, ""⟩ [] ∧
    countKey (scheduleRemindersForTurno 0 ⟨1, 7, 1500, ""⟩
      (scheduleRemindersForTurno 0 ⟨1, 7, 1500, ""⟩ []))
      (jobKey 1 "30m") = 1 :=
  ⟨(scheduleReminders_idempotent 0 ⟨1, 7, 1500, ""⟩ []
      (by simp [NodupKeys, keys])).1,
   (scheduleReminders_idempotent 0 ⟨1, 7, 1500, ""⟩ []
      (by simp [NodupKeys, keys])).2
     ⟨"30m", "30 minutos", 30⟩ (by decide) (by decide)⟩

/-- C5: `init` (the recovery routine) reports the number of stored
appointments with strictly future target instants, schedules only those,
and the resulting registry holds exactly one job per (future appointment,
offset with still-future trigger): its size is the corresponding sum and
every entry comes from a future appointment with a future trigger. -/
theorem recoverAll_future_only (now : Int) (turnos : List Turno)
    (hnd : (turnos.map Turno.id).Nodup) :
    (init now turnos []).2 =
      (turnos.filter (fun t => decide (now < t.fecha))).length ∧
    (init now turnos []).1.length =
      ((turnos.filter (fun t => decide (now < t.fecha))).map (fun t =>
        (REMINDERS.filter (fun r => decide (now < trigger t.fecha r))).length)).sum ∧
    ∀ p ∈ (init now turnos []).1,
      ∃ t ∈ turnos, now < t.fecha ∧ p.2.turno = t ∧ now < p.2.trigger := by
  have hndf : ((turnos.filter (fun t => decide (now < t.fecha))).map
      Turno.id).Nodup :=
    ((List.filter_sublist turnos).map Turno.id).nodup hnd
  refine ⟨rfl, ?_, ?_⟩
  · show ((turnos.filter (fun t => decide (now < t.fecha))).foldl
        (fun acc t => scheduleRemindersForTurno now t acc) []).length = _
    rw [init_aux_length now _ [] hndf (by intro t _ s hmem; simp [keys] at hmem)]
    simp
  · intro p hp
    replace hp : p ∈ (turnos.filter (fun t => decide (now < t.fecha))).foldl
        (fun acc t => scheduleRemindersForTurno now t acc) [] := hp
    rcases init_aux_mem now _ [] p hp with hp | ⟨t, ht, r, _, hfut, hpe⟩
    · simp at hp
    · refine ⟨t, (List.mem_filter.mp ht).1, ?_, ?_, ?_⟩
      · simpa using (List.mem_filter.mp ht).2
      · rw [hpe]
      · rw [hpe]
        exact hfut

/-- Witness for C5: one future and one past appointment. -/
theorem recoverAll_future_only_witness :
    (init 0 [⟨1, 7, 1500, ""⟩, ⟨2, 8, -5, ""⟩] []).2 =
      ([⟨1, 7, 1500, ""⟩, ⟨2, 8, -5, ""⟩].filter
        (fun t : Turno => decide ((0:Int) < t.fecha))).length ∧
    (init 0 [⟨1, 7, 1500, ""⟩, ⟨2, 8, -5, ""⟩] []).1.length =
      (([⟨1, 7, 1500, ""⟩, ⟨2, 8, -5, ""⟩].filter
        (fun t : Turno => decide ((0:Int) < t.fecha))).map (fun t =>
        (REMINDERS.filter (fun r => decide ((0:Int) < trigger t.fecha r))).length)).sum ∧
    ∀ p ∈ (init 0 [⟨1, 7, 1500, ""⟩, ⟨2, 8, -5, ""⟩] []).1,
      ∃ t ∈ [⟨1, 7, 1500, ""⟩, ⟨2, 8, -5, ""⟩], (0:Int) < t.fecha ∧
        p.2.turno = t ∧ (0:Int) < p.2.trigger :=
  recoverAll_future_only 0 [⟨1, 7, 1500, ""⟩, ⟨2, 8, -5, ""⟩] (by decide)

/-- C6: when a job's trigger instant arrives, the callback makes exactly
one Dispatcher invocation — its message contains the offset's label, the
formatted target instant and the description — and then removes the
job's key from the registry, so a subsequent lookup finds nothing. -/
theorem job_fire_dispatch_and_remove (fmt : Int → String) (ok : Bool)
    (st : BotState) (k : String) (j : Job)
    (h1 : rget st.registry k = some j) (h2 : NodupKeys st.registry) :
    (fireCallback fmt j.turno j.rem k ok st).sent =
      st.sent ++ [(j.turno.chat_id, mkMessage j.rem.label (fmt j.turno.fecha)
        (jsOrEmpty j.turno.descripcion))] ∧
    (∃ s₁ s₂, mkMessage j.rem.label (fmt j.turno.fecha)
        (jsOrEmpty j.turno.descripcion) = s₁ ++ j.rem.label ++ s₂) ∧
    (∃ s₁ s₂, mkMessage j.rem.label (fmt j.turno.fecha)
        (jsOrEmpty j.turno.descripcion) = s₁ ++ fmt j.turno.fecha ++ s₂) ∧
    (∃ s₁ s₂, mkMessage j.rem.label (fmt j.turno.fecha)
        (jsOrEmpty j.turno.descripcion) = s₁ ++ j.turno.descripcion ++ s₂) ∧
    rget (fireCallback fmt j.turno j.rem k ok st).registry k = none := by
  refine ⟨rfl, mkMessage_has_label _ _ _, mkMessage_has_fmt _ _ _, ?_, ?_⟩
  · rw [jsOrEmpty_eq]
    exact mkMessage_has_desc _ _ _
  · show rget (rdel st.registry k) k = none
    exact rget_rdel_self st.registry k h2

/-- Witness for C6: firing a concrete pending job. -/
theorem job_fire_dispatch_and_remove_witness :
    ((fireCallback (fun _ => "25/12/2026 12:00") ⟨1, 7, 1500, "Turno"⟩
        ⟨"30m", "30 minutos", 30⟩ (jobKey 1 "30m") true
        ⟨[], [(jobKey 1 "30m",
          ⟨1470, ⟨1, 7, 1500, "Turno"⟩, ⟨"30m", "30 minutos", 30⟩⟩)], []⟩).sent =
      [] ++ [((7:Int), mkMessage "30 minutos" "25/12/2026 12:00"
        (jsOrEmpty "Turno"))]) ∧
    (∃ s₁ s₂, mkMessage "30 minutos" "25/12/2026 12:00" (jsOrEmpty "Turno") =
        s₁ ++ "30 minutos" ++ s₂) ∧
    (∃ s₁ s₂, mkMessage "30 minutos" "25/12/2026 12:00" (jsOrEmpty "Turno") =
        s₁ ++ "25/12/2026 12:00" ++ s₂) ∧
    (∃ s₁ s₂, mkMessage "30 minutos" "25/12/2026 12:00" (jsOrEmpty "Turno") =
        s₁ ++ "Turno" ++ s₂) ∧
    rget (fireCallback (fun _ => "25/12/2026 12:00") ⟨1, 7, 1500, "Turno"⟩
        ⟨"30m", "30 minutos", 30⟩ (jobKey 1 "30m") true
        ⟨[], [(jobKey 1 "30m",
          ⟨1470, ⟨1, 7, 1500, "Turno"⟩, ⟨"30m", "30 minutos", 30⟩⟩)], []⟩).registry
      (jobKey 1 "30m") = none :=
  job_fire_dispatch_and_remove (fun _ => "25/12/2026 12:00") true
    ⟨[], [(jobKey 1 "30m",
      ⟨1470, ⟨1, 7, 1500, "Turno"⟩, ⟨"30m", "30 minutos", 30⟩⟩)], []⟩
    (jobKey 1 "30m") ⟨1470, ⟨1, 7, 1500, "Turno"⟩, ⟨"30m", "30 minutos", 30⟩⟩
    (by decide) (by simp [NodupKeys, keys])

/-- C7: the firing path attempts delivery exactly once and does not
retry: the resulting state is identical whether the Dispatcher call
succeeds or fails, the `sent` log grows by exactly that one attempt, and
the job's key is gone from the registry afterwards, so it can never
re-trigger. -/
theorem fire_no_retry (fmt : Int → String) (t : Turno) (r : Reminder)
    (k : String) (st : BotState) (h : NodupKeys st.registry) :
    fireCallback fmt t r k true st = fireCallback fmt t r k false st ∧
    (fireCallback fmt t r k true st).sent = st.sent ++
      [(t.chat_id, mkMessage r.label (fmt t.fecha) (jsOrEmpty t.descripcion))] ∧
    rget (fireCallback fmt t r k true st).registry k = none :=
  ⟨rfl, rfl, rget_rdel_self st.registry k h⟩

/-- Witness for C7 at a concrete firing. -/
theorem fire_no_retry_witness :
    fireCallback (fun _ => "f") ⟨1, 7, 1500, ""⟩ ⟨"1h", "1 hora", 60⟩
        (jobKey 1 "1h") true
        ⟨[], [(jobKey 1 "1h", ⟨1440, ⟨1, 7, 1500, ""⟩, ⟨"1h", "1 hora", 60⟩⟩)], []⟩ =
      fireCallback (fun _ => "f") ⟨1, 7, 1500, ""⟩ ⟨"1h", "1 hora", 60⟩
        (jobKey 1 "1h") false
        ⟨[], [(jobKey 1 "1h", ⟨1440, ⟨1, 7, 1500, ""⟩, ⟨"1h", "1 hora", 60⟩⟩)], []⟩ ∧
    (fireCallback (fun _ => "f") ⟨1, 7, 1500, ""⟩ ⟨"1h", "1 hora", 60⟩
        (jobKey 1 "1h") true
        ⟨[], [(jobKey 1 "1h", ⟨1440, ⟨1, 7, 1500, ""⟩, ⟨"1h", "1 hora", 60⟩⟩)], []⟩).sent =
      [] ++ [((7:Int), mkMessage "1 hora" "f" (jsOrEmpty ""))] ∧
    rget (fireCallback (fun _ => "f") ⟨1, 7, 1500, ""⟩ ⟨"1h", "1 hora", 60⟩
        (jobKey 1 "1h") true
        ⟨[], [(jobKey 1 "1h", ⟨1440, ⟨1, 7, 1500, ""⟩, ⟨"1h", "1 hora", 60⟩⟩)], []⟩).registry
      (jobKey 1 "1h") = none :=
  fire_no_retry (fun _ => "f") ⟨1, 7, 1500, ""⟩ ⟨"1h", "1 hora", 60⟩
    (jobKey 1 "1h")
    ⟨[], [(jobKey 1 "1h", ⟨1440, ⟨1, 7, 1500, ""⟩, ⟨"1h", "1 hora", 60⟩⟩)], []⟩
    (by simp [NodupKeys, keys])

/-- C1 (code bug): the `/borrar` flow only deletes the database row; it
never cancels the appointment's reminder jobs.  Concretely: turno 1
(chat 7, target at minute 2000) is scheduled at minute 0, then
`/borrar 1` succeeds — yet the registry is untouched, the job under
`turno-1-24h` is still live with trigger 560, and when that trigger
arrives the deleted appointment's reminder is still dispatched. -/
theorem borrar_leaves_reminder_jobs :
    (borrarHandler ⟨[⟨1, 7, 2000, "Turno"⟩],
        scheduleRemindersForTurno 0 ⟨1, 7, 2000, "Turno"⟩ [], []⟩ 7 1).turnos = [] ∧
    (borrarHandler ⟨[⟨1, 7, 2000, "Turno"⟩],
        scheduleRemindersForTurno 0 ⟨1, 7, 2000, "Turno"⟩ [], []⟩ 7 1).registry =
      scheduleRemindersForTurno 0 ⟨1, 7, 2000, "Turno"⟩ [] ∧
    rget (borrarHandler ⟨[⟨1, 7, 2000, "Turno"⟩],
        scheduleRemindersForTurno 0 ⟨1, 7, 2000, "Turno"⟩ [], []⟩ 7 1).registry
      (jobKey 1 "24h") =
      some ⟨560, ⟨1, 7, 2000, "Turno"⟩, ⟨"24h", "1 día", 1440⟩⟩ ∧
    (fireCallback (fun _ => "fecha") ⟨1, 7, 2000, "Turno"⟩ ⟨"24h", "1 día", 1440⟩
        (jobKey 1 "24h") true
        ⟨[], (borrarHandler ⟨[⟨1, 7, 2000, "Turno"⟩],
          scheduleRemindersForTurno 0 ⟨1, 7, 2000, "Turno"⟩ [], []⟩ 7 1).registry,
         []⟩).sent =
      [((7:Int), mkMessage "1 día" "fecha" (jsOrEmpty "Turno"))] := by
  decide
